import Mathlib

/-
Verification of the RAPID robustness-metric library.

The embedding below translates the Python sources under
`rapid/robustness/` into Lean:

* matrices `(m, n)` of performance values become `List (List ℚ)`
  (a list of `m` rows, each of length `n`); numpy floating-point
  arithmetic is modelled by exact rational arithmetic, so statements
  that the spec qualifies with "within floating tolerance" are proved
  exactly;
* numpy operations that raise on an empty axis are given junk values on
  `[]` and the corresponding theorems carry `1 ≤ n` / `1 ≤ m`
  hypotheses;
* divisions that numpy turns into `NaN`/`inf` are modelled by
  `Option ℚ`, with `none` standing for the non-finite result.

Module mapping:
  `rapid/robustness/metrics/transforms/t1.py` -> namespace `RAPID.t1`
  `rapid/robustness/metrics/transforms/t2.py` -> namespace `RAPID.t2`
  `rapid/robustness/metrics/transforms/t3.py` -> namespace `RAPID.t3`
  `rapid/robustness/metrics/common_metrics.py` -> namespace `RAPID`
  `rapid/robustness/analysis/comparisons.py` -> namespace `RAPID`
  `rapid/robustness/evaluator/calc.py` -> namespace `RAPID`
-/

namespace RAPID

/-- A performance matrix: `m` rows (decision alternatives), each a list
of `n` scenario values. -/
abbrev Mat := List (List ℚ)

/-- Wellformedness of a matrix: `m` rows, each of length `n`.
This is the shape invariant numpy maintains for a 2-D `ndarray`. -/
def isMatrix (m n : ℕ) (f : Mat) : Prop :=
  f.length = m ∧ ∀ row ∈ f, row.length = n

instance (m n : ℕ) (f : Mat) : Decidable (isMatrix m n f) := by
  unfold isMatrix; infer_instance

/-- Elementwise negation of a matrix (numpy unary minus). -/
def negM (f : Mat) : Mat := f.map (fun row => row.map (fun x => -x))

/-- Row-wise minimum, modelling `np.amin(f, 1)` on one row.
numpy raises on an empty axis; `[]` is given the junk value `0` and all
theorems that use `rowMin` assume nonempty rows. -/
def rowMin : List ℚ → ℚ
  | [] => 0
  | x :: xs => xs.foldl min x

/-- Row-wise maximum, modelling `np.amax(f, 1)` on one row; junk `0` on
`[]` as in `rowMin`. -/
def rowMax : List ℚ → ℚ
  | [] => 0
  | x :: xs => xs.foldl max x

/-- Number of columns of a matrix, modelling `f.shape[1]`.
For a wellformed `(m, n)` matrix with `m ≥ 1` this is `n`. -/
def nCols (f : Mat) : ℕ := (f.headD []).length

/-- Row-wise ascending sort, modelling `np.sort(f)` on one row.
Any comparison sort gives the same value on a totally ordered type, so
insertion sort is used for its proof API. -/
def sortRow (row : List ℚ) : List ℚ := List.insertionSort (· ≤ ·) row

/-- Division producing `none` on a zero denominator, modelling the fact
that `np.divide` yields `NaN`/`inf` (a non-finite value) there instead
of raising. -/
def divOpt (a b : ℚ) : Option ℚ := if b = 0 then none else some (a / b)

namespace t1

/-- t1.identity: returns `f` unchanged if maximising, else `-f`
(`_prepare_f` only reshapes 1-D input to 2-D, which the `Mat` type
already guarantees). -/
def identity (f : Mat) (maximise : Bool) : Mat :=
  if maximise then f else negM f

/-- Columnwise maximum (`np.amax(g, axis=0)`): for each column index
`j` below `nCols g`, the maximum of that column's entries. -/
def colMaxs (g : Mat) : List ℚ :=
  (List.range (nCols g)).map (fun j => rowMax (g.map (fun row => row.getD j 0)))

/-- t1.regret_from_best_da: apply `identity`, take the columnwise
maximum over decision alternatives (`np.amax(_f, axis=0)`), and
subtract it from every row. -/
def regret_from_best_da (f : Mat) (maximise : Bool) : Mat :=
  let g := identity f maximise
  let bests := colMaxs g
  g.map (fun row => row.zipWith (fun x b => x - b) bests)

/-- t1.satisfice: apply `identity`, compare to the threshold (negated
when minimising), and map the Boolean outcome to `1.0` / `0.0`
(`np.where(_f, 1., 0.)`). -/
def satisfice (f : Mat) (maximise : Bool) (threshold : ℚ)
    (accept_equal : Bool) : Mat :=
  let g := identity f maximise
  let c := if maximise then threshold else -threshold
  g.map (fun row => row.map (fun x =>
    if (if accept_equal then decide (c ≤ x) else decide (c < x)) then
      (1 : ℚ)
    else 0))

end t1

namespace t2

/-- t2.all_scenarios: the identity selection. -/
def all_scenarios (f : Mat) : Mat := f

/-- t2.worst_case: `np.amin(f, 1, keepdims=True)`, one column holding
each row's minimum. -/
def worst_case (f : Mat) : Mat := f.map (fun row => [rowMin row])

/-- t2.best_case: `np.amax(f, 1, keepdims=True)`, one column holding
each row's maximum. -/
def best_case (f : Mat) : Mat := f.map (fun row => [rowMax row])

/-- The retained column count of `worst_half`:
`_n = int(n / 2. + 0.51)`, i.e. truncation of `n / 2 + 0.51` (the
argument is nonnegative, so `int` truncation is the floor). -/
def halfCount (n : ℕ) : ℕ := (⌊(n : ℚ) / 2 + 51 / 100⌋).toNat

/-- t2.worst_half: sort each row ascending and keep the first
`int(n / 2 + 0.51)` columns, where `n = sorted_f.shape[1]`. -/
def worst_half (f : Mat) : Mat :=
  let n := nCols f
  f.map (fun row => (sortRow row).take (halfCount n))

/-- Nearest-rank index for `np.quantile(..., interpolation=nearest)`:
the virtual index `p * (n - 1)` rounded to the nearest integer, halves
to even (numpy rounds via `np.around`). -/
def nearestIdx (p : ℚ) (n : ℕ) : ℕ :=
  let v := p * ((n : ℚ) - 1)
  let fl := ⌊v⌋
  let fr := v - fl
  (if fr < 1 / 2 then fl
   else if 1 / 2 < fr then fl + 1
   else if fl % 2 = 0 then fl else fl + 1).toNat

/-- One row-wise nearest-rank quantile of
`np.quantile(f, p, axis=1, interpolation=nearest)`. -/
def quantileNearest (row : List ℚ) (p : ℚ) : ℚ :=
  (sortRow row).getD (nearestIdx p row.length) 0

/-- t2.select_percentiles: one column per requested percentile, in the
order requested (the source computes `np.quantile(..., axis=1)` of
shape `(len percentiles, m)` and transposes; mapping per row builds the
transposed result directly). -/
def select_percentiles (f : Mat) (percentiles : List ℚ) : Mat :=
  f.map (fun row => percentiles.map (fun p => quantileNearest row p))

end t2

namespace t3

/-- t3.f_sum: row sums divided by the column count `f.shape[1]`. -/
def f_sum (f : Mat) : List ℚ :=
  f.map (fun row => row.sum / (nCols f : ℚ))

/-- t3.f_mean: `np.mean(f, axis=1)`, the row mean (for a wellformed
matrix the row length equals `f.shape[1]`). -/
def f_mean (f : Mat) : List ℚ :=
  f.map (fun row => row.sum / (row.length : ℚ))

/-- t3.f_skew: reads columns 0, 1, 2 as `(p10, p50, p90)` and returns
`(p50 - (p90 + p10)/2) / ((p90 - p10)/2)` (sign flipped when
`reverse`).  The outer `Option` models the `IndexError` numpy raises
when the matrix has fewer than 3 columns (`f[:, 2]` out of bounds); the
inner `Option` models the `NaN`/`inf` produced by a zero normaliser.
There is no `ShapeError` in the source: with more than 3 columns the
extra columns are silently ignored. -/
def f_skew (f : Mat) (reverse : Bool := false) : Option (List (Option ℚ)) :=
  if f.all (fun row => decide (3 ≤ row.length)) then
    some (f.map (fun row =>
      let p10 := row.getD 0 0
      let p50 := row.getD 1 0
      let p90 := row.getD 2 0
      let R := if reverse then (p90 + p10) / 2 - p50
               else p50 - (p90 + p10) / 2
      divOpt R ((p90 - p10) / 2)))
  else none

/-- t3.f_kurtosis: reads columns 0, 1, 2, 3 as `(p10, p25, p75, p90)`
and returns `(p90 - p10) / (p75 - p25)`; `Option` layers as in
`f_skew`, with the `IndexError` raised when there are fewer than 4
columns. -/
def f_kurtosis (f : Mat) : Option (List (Option ℚ)) :=
  if f.all (fun row => decide (4 ≤ row.length)) then
    some (f.map (fun row =>
      let p10 := row.getD 0 0
      let p25 := row.getD 1 0
      let p75 := row.getD 2 0
      let p90 := row.getD 3 0
      divOpt (p90 - p10) (p75 - p25)))
  else none

end t3

/-- common_metrics.maximin: identity, then worst_case, then f_sum. -/
def maximin (f : Mat) (maximise : Bool := true) : List ℚ :=
  t3.f_sum (t2.worst_case (t1.identity f maximise))

/-- common_metrics.maximax: identity, then best_case, then f_sum. -/
def maximax (f : Mat) (maximise : Bool := true) : List ℚ :=
  t3.f_sum (t2.best_case (t1.identity f maximise))

/-- common_metrics.minimax_regret: regret_from_best_da, then
worst_case, then f_sum. -/
def minimax_regret (f : Mat) (maximise : Bool := true) : List ℚ :=
  t3.f_sum (t2.worst_case (t1.regret_from_best_da f maximise))

/-- common_metrics.starrs_domain: satisfice, then all_scenarios, then
f_mean. -/
def starrs_domain (f : Mat) (maximise : Bool := true)
    (threshold : ℚ := 0) (accept_equal : Bool := true) : List ℚ :=
  t3.f_mean (t2.all_scenarios
    (t1.satisfice f maximise threshold accept_equal))

/-! Comparison engine (`rapid/robustness/analysis/comparisons.py`). -/

/-- Average of a vector of possibly non-finite values, modelling
`np.average`: `none` on an empty vector (numpy yields `NaN` there) and
when any entry is non-finite (a `NaN` or `inf` entry makes the mean
non-finite). -/
def avgOpt (l : List (Option ℚ)) : Option ℚ :=
  if l.isEmpty then none
  else if l.all (fun x => x.isSome) then
    some ((l.map (fun x => x.getD 0)).sum / (l.length : ℚ))
  else none

/-- Column `j` of a robustness matrix stored as a list of rows,
modelling the slice `R[:, j]`. -/
def col (R : Mat) (j : ℕ) : List ℚ :=
  R.map (fun row => row.getD j 0)

/-- The relative-difference statistic of one pair of columns:
elementwise `|a - b| / (|a + b| / 2)`, averaged over the decision
alternatives and scaled by 100. -/
def pairDelta (ci cj : List ℚ) : Option ℚ :=
  (avgOpt (List.zipWith (fun a b => divOpt |a - b| (|a + b| / 2)) ci cj)).map
    (fun d => d * 100)

/-- A `(k, k)` similarity matrix, as a total function on indices (the
source uses an `np.zeros((n, n))` array). -/
abbrev SimMat := ℕ → ℕ → Option ℚ

/-- Writing one pair value at `[i, j]` and `[j, i]`, modelling the two
mirrored array assignments in the loop body. -/
def updatePair (M : SimMat) (i j : ℕ) (v : Option ℚ) : SimMat :=
  fun a b => if (a = i ∧ b = j) ∨ (a = j ∧ b = i) then v else M a b

/-- The index pairs visited by
`for idx_1 in range(n): for idx_2 in range(idx_1, n)`, in loop order. -/
def pairList (k : ℕ) : List (ℕ × ℕ) :=
  (List.range k).flatMap (fun i =>
    ((List.range k).filter (fun j => decide (i ≤ j))).map (fun j => (i, j)))

/-- The double loop that fills a similarity matrix: starting from
`np.zeros`, each visited pair `(i, j)` stores its value symmetrically. -/
def fillSym (vals : ℕ → ℕ → Option ℚ) (k : ℕ) : SimMat :=
  (pairList k).foldl (fun M p => updatePair M p.1 p.2 (vals p.1 p.2))
    (fun _ _ => some 0)

/-- comparisons.scenarios_similarity: the `(delta, tau)` pair of
similarity matrices over the `n = R.shape[1]` variants.
`scipy.stats.kendalltau(..., nan_policy=omit)` is an external library
call; it is abstracted as the parameter `kt`, so every theorem below
holds for an arbitrary rank-correlation function. -/
def scenarios_similarity (kt : List ℚ → List ℚ → Option ℚ) (R : Mat) :
    SimMat × SimMat :=
  let k := nCols R
  (fillSym (fun i j => pairDelta (col R i) (col R j)) k,
   fillSym (fun i j => kt (col R i) (col R j)) k)

/-! Tabular evaluator (`rapid/robustness/evaluator/calc.py`). -/

/-- One row of the long-format performance table `f_df`: the scenario
index `s_idx`, the decision-alternative index `l_idx`, and the values
of the named data columns, positionally aligned with the table's
column-name list. -/
structure TRow where
  s : ℤ
  l : ℤ
  vals : List ℚ
deriving DecidableEq

/-- The long-format performance table: the data column names (the
frame's columns besides `s_idx` and `l_idx`) and the rows. -/
structure FTable where
  names : List String
  rows : List TRow
deriving DecidableEq

/-- The values of a named column in row order, modelling
`f_df.iloc[:, f_df.columns.get_loc(name)].values`. -/
def colVals (t : FTable) (name : String) : List ℚ :=
  t.rows.map (fun r => r.vals.getD (t.names.indexOf name) 0)

/-- calc.sort_f_df.  The source runs
`f_df.sort_values([l_idx, s_idx], ascending=[True, True])` but
discards the sorted frame it returns (no assignment, no
`inplace=True`), so the function hands back its input with the rows in
their original order.  Its own docstring and its caller's comment
("Sort dataframe to ensure consistency") say that it sorts. -/
def sort_f_df (t : FTable) : FTable := t

/-- The lexicographic `(l_idx, s_idx)` ascending order that
`sort_values` was asked for. -/
def rowLE (r1 r2 : TRow) : Prop :=
  r1.l < r2.l ∨ (r1.l = r2.l ∧ r1.s ≤ r2.s)

instance (r1 r2 : TRow) : Decidable (rowLE r1 r2) := by
  unfold rowLE; infer_instance

/-- What calc.sort_f_df was evidently meant to do: return the table
with rows sorted by `(l_idx, s_idx)` ascending. -/
def sort_f_df_intended (t : FTable) : FTable :=
  { t with rows := t.rows.insertionSort rowLE }

/-- Unique values in order of first appearance, modelling
`pandas.Series.unique`. -/
def uniqueVals (l : List ℤ) : List ℤ :=
  l.foldl (fun acc x => if x ∈ acc then acc else acc ++ [x]) []

/-- calc.get_f_df_details: the unique scenario and
decision-alternative indices, after checking that each scenario's rows
carry exactly the full decision-alternative index list (the
`np.allclose` assertion); `none` models the `AssertionError`. -/
def get_f_df_details (t : FTable) : Option (List ℤ × List ℤ) :=
  let t2 := sort_f_df t
  let s_idxs := uniqueVals (t2.rows.map (fun r => r.s))
  let l_idxs := uniqueVals (t2.rows.map (fun r => r.l))
  if s_idxs.all (fun s =>
      decide (((t2.rows.filter (fun r => decide (r.s = s))).map
        (fun r => r.l)) = l_idxs)) then
    some (s_idxs, l_idxs)
  else none

/-- The nested `kwargs['t1_kwargs']` dictionary, restricted to the one
key the evaluator writes (`threshold`); other keys are never touched
by `f_to_R` and are not modelled. -/
structure T1Kwargs where
  threshold : Option Mat
deriving DecidableEq

/-- The per-metric `kwargs` dictionary, restricted to the keys
`f_to_R` writes (`t1_kwargs` and `maximise`); other keys are never
touched and are not modelled. -/
structure Kwargs where
  t1_kwargs : Option T1Kwargs
  maximise : Option Bool
deriving DecidableEq

/-- One entry of `R_dict`: the metric name and its record
`{f, maximise, threshold, func, kwargs}`. -/
structure MetricDef where
  name : String
  fName : String
  maximise : Bool
  threshold : Option String
  func : Mat → Kwargs → List ℚ
  kwargs : Kwargs

/-- Row-major chunking of a flat vector into `m` rows of `n`. -/
def chunkRows (m n : ℕ) (v : List ℚ) : Mat :=
  match m with
  | 0 => []
  | m2 + 1 => v.take n :: chunkRows m2 n (v.drop n)

/-- `np.reshape(v, newshape=(m, n))`: row-major reshape; `none` models
the `ValueError` raised when the element count does not match. -/
def reshape (v : List ℚ) (m n : ℕ) : Option Mat :=
  if v.length = m * n then some (chunkRows m n v) else none

/-- The threshold-injection step of calc.f_to_R's loop body: when the
metric names a threshold column, assert it exists, reshape it to
`(numL, numS)` and store it under `kwargs['t1_kwargs']['threshold']`
(creating `t1_kwargs` if absent); otherwise the kwargs pass through. -/
def injectThreshold (t2 : FTable) (numL numS : ℕ) (d : MetricDef) :
    Option Kwargs :=
  match d.threshold with
  | none => some d.kwargs
  | some thrName =>
    if t2.names.contains thrName then
      match reshape (colVals t2 thrName) numL numS with
      | some thrM =>
        let t1k := d.kwargs.t1_kwargs.getD ⟨none⟩
        some { d.kwargs with
               t1_kwargs := some { t1k with threshold := some thrM } }
      | none => none
    else none

/-- The body of the `for R_metric in R_dict` loop of calc.f_to_R,
processed sequentially: each metric definition's kwargs dictionary is
mutated (threshold injection and the `maximise` key) before its
function is called, and the mutated definitions are returned alongside
the computed robustness values. -/
def processDefs (t2 : FTable) (numL numS : ℕ) :
    List MetricDef → Option (List (String × List ℚ) × List MetricDef)
  | [] => some ([], [])
  | d :: rest =>
    match injectThreshold t2 numL numS d with
    | none => none
    | some k1 =>
      let k2 := { k1 with maximise := some d.maximise }
      match reshape (colVals t2 d.fName) numL numS with
      | none => none
      | some fM =>
        match processDefs t2 numL numS rest with
        | none => none
        | some (rs, ds) =>
          some ((d.name, d.func fM k2) :: rs, { d with kwargs := k2 } :: ds)

/-- calc.f_to_R: check the referenced performance columns, "sort" the
table, derive the index lists, then compute every metric.  The Python
function mutates `R_dict` in place; the model returns the post-call
metric definitions as the second component so the mutation is
observable.  (On a failure partway through, Python leaves the earlier
definitions mutated; the all-or-nothing `Option` model observes the
mutation only on success, which is all the theorems below use.) -/
def f_to_R (t : FTable) (defs : List MetricDef) :
    Option (List (String × List ℚ) × List MetricDef) :=
  if defs.all (fun d => t.names.contains d.fName) then
    let t2 := sort_f_df t
    match get_f_df_details t2 with
    | none => none
    | some (s_idxs, l_idxs) => processDefs t2 l_idxs.length s_idxs.length defs
  else none

/-! Helper lemmas about the embedded operations. -/

theorem foldl_min_mem (xs : List ℚ) (a : ℚ) :
    xs.foldl min a = a ∨ xs.foldl min a ∈ xs := by
  induction xs generalizing a with
  | nil => left; rfl
  | cons y ys ih =>
    rcases ih (min a y) with h | h
    · rcases min_choice a y with hm | hm
      · left; rw [List.foldl_cons, h, hm]
      · right; rw [List.foldl_cons, h, hm]; exact List.mem_cons_self _ _
    · right; exact List.mem_cons_of_mem _ h

theorem foldl_min_le (xs : List ℚ) (a : ℚ) :
    xs.foldl min a ≤ a ∧ ∀ x ∈ xs, xs.foldl min a ≤ x := by
  induction xs generalizing a with
  | nil => exact ⟨le_refl a, by simp⟩
  | cons y ys ih =>
    obtain ⟨h1, h2⟩ := ih (min a y)
    refine ⟨le_trans h1 (min_le_left a y), ?_⟩
    intro x hx
    rcases List.mem_cons.mp hx with rfl | hx
    · exact le_trans h1 (min_le_right a x)
    · exact h2 x hx

theorem foldl_max_mem (xs : List ℚ) (a : ℚ) :
    xs.foldl max a = a ∨ xs.foldl max a ∈ xs := by
  induction xs generalizing a with
  | nil => left; rfl
  | cons y ys ih =>
    rcases ih (max a y) with h | h
    · rcases max_choice a y with hm | hm
      · left; rw [List.foldl_cons, h, hm]
      · right; rw [List.foldl_cons, h, hm]; exact List.mem_cons_self _ _
    · right; exact List.mem_cons_of_mem _ h

theorem le_foldl_max (xs : List ℚ) (a : ℚ) :
    a ≤ xs.foldl max a ∧ ∀ x ∈ xs, x ≤ xs.foldl max a := by
  induction xs generalizing a with
  | nil => exact ⟨le_refl a, by simp⟩
  | cons y ys ih =>
    obtain ⟨h1, h2⟩ := ih (max a y)
    refine ⟨le_trans (le_max_left a y) h1, ?_⟩
    intro x hx
    rcases List.mem_cons.mp hx with rfl | hx
    · exact le_trans (le_max_right a x) h1
    · exact h2 x hx

theorem rowMin_mem (row : List ℚ) (h : row ≠ []) : rowMin row ∈ row := by
  match row with
  | [] => exact absurd rfl h
  | x :: xs =>
    rcases foldl_min_mem xs x with h1 | h1
    · rw [rowMin, h1]; exact List.mem_cons_self _ _
    · exact List.mem_cons_of_mem _ h1

theorem rowMin_le (row : List ℚ) (h : row ≠ []) :
    ∀ x ∈ row, rowMin row ≤ x := by
  match row with
  | [] => exact absurd rfl h
  | y :: ys =>
    intro x hx
    rcases List.mem_cons.mp hx with rfl | hx
    · exact (foldl_min_le ys x).1
    · exact (foldl_min_le ys y).2 x hx

theorem rowMax_mem (row : List ℚ) (h : row ≠ []) : rowMax row ∈ row := by
  match row with
  | [] => exact absurd rfl h
  | x :: xs =>
    rcases foldl_max_mem xs x with h1 | h1
    · rw [rowMax, h1]; exact List.mem_cons_self _ _
    · exact List.mem_cons_of_mem _ h1

theorem le_rowMax (row : List ℚ) (h : row ≠ []) :
    ∀ x ∈ row, x ≤ rowMax row := by
  match row with
  | [] => exact absurd rfl h
  | y :: ys =>
    intro x hx
    rcases List.mem_cons.mp hx with rfl | hx
    · exact (le_foldl_max ys x).1
    · exact (le_foldl_max ys y).2 x hx

theorem foldl_min_neg (xs : List ℚ) (a : ℚ) :
    xs.foldl min a = -((xs.map (fun x => -x)).foldl max (-a)) := by
  induction xs generalizing a with
  | nil => simp
  | cons y ys ih =>
    rw [List.foldl_cons, List.map_cons, List.foldl_cons, ih (min a y)]
    congr 2
    exact (max_neg_neg a y).symm

/-- Row-wise min is the negated row-wise max of the negated row. -/
theorem rowMin_eq_neg_rowMax_neg (row : List ℚ) :
    rowMin row = -(rowMax (row.map (fun x => -x))) := by
  match row with
  | [] => simp [rowMin, rowMax]
  | x :: xs => simpa [rowMin, rowMax] using foldl_min_neg xs x

theorem sortRow_perm (row : List ℚ) : List.Perm (sortRow row) row :=
  List.perm_insertionSort _ row

theorem sortRow_sorted (row : List ℚ) : List.Sorted (· ≤ ·) (sortRow row) :=
  List.sorted_insertionSort _ row

theorem sortRow_length (row : List ℚ) : (sortRow row).length = row.length :=
  (sortRow_perm row).length_eq

theorem getD_zero_eq_head (l : List ℚ) (h : l ≠ []) : l.getD 0 0 = l.head h := by
  cases l with
  | nil => exact absurd rfl h
  | cons a t => rfl

theorem getD_last (l : List ℚ) (h : l ≠ []) :
    l.getD (l.length - 1) 0 = l.getLast h := by
  have hlt : l.length - 1 < l.length := by
    cases l with
    | nil => exact absurd rfl h
    | cons a t => simp
  rw [List.getD_eq_getElem l 0 hlt, List.getLast_eq_getElem]

theorem sorted_head_le (l : List ℚ) (hs : List.Sorted (· ≤ ·) l) (h : l ≠ []) :
    ∀ x ∈ l, l.head h ≤ x := by
  cases l with
  | nil => exact absurd rfl h
  | cons a t =>
    intro x hx
    rcases List.mem_cons.mp hx with rfl | hx
    · exact le_refl x
    · exact (List.sorted_cons.mp hs).1 x hx

theorem sorted_le_getLast (l : List ℚ) (hs : List.Sorted (· ≤ ·) l) (h : l ≠ []) :
    ∀ x ∈ l, x ≤ l.getLast h := by
  induction l with
  | nil => exact absurd rfl h
  | cons a t ih =>
    intro x hx
    cases t with
    | nil =>
      rcases List.mem_cons.mp hx with rfl | hx
      · exact le_refl x
      · simp at hx
    | cons b u =>
      rw [List.getLast_cons (by simp)]
      rcases List.mem_cons.mp hx with rfl | hx
      · exact le_trans ((List.sorted_cons.mp hs).1 _ (List.getLast_mem _))
          (le_refl _)
      · exact ih (List.sorted_cons.mp hs).2 (by simp) x hx

theorem sortRow_ne_nil (row : List ℚ) (h : row ≠ []) : sortRow row ≠ [] := by
  intro he
  apply h
  have := sortRow_length row
  rw [he] at this
  exact List.eq_nil_of_length_eq_zero this.symm

/-- The first entry of the ascending sort is the row minimum. -/
theorem sortRow_getD_zero (row : List ℚ) (h : row ≠ []) :
    (sortRow row).getD 0 0 = rowMin row := by
  have hne := sortRow_ne_nil row h
  rw [getD_zero_eq_head _ hne]
  have hmem : (sortRow row).head hne ∈ row :=
    (sortRow_perm row).mem_iff.mp (List.head_mem hne)
  apply le_antisymm
  · exact sorted_head_le _ (sortRow_sorted row) hne _
      ((sortRow_perm row).mem_iff.mpr (rowMin_mem row h))
  · exact rowMin_le row h _ hmem

/-- The last entry of the ascending sort is the row maximum. -/
theorem sortRow_getD_last (row : List ℚ) (h : row ≠ []) :
    (sortRow row).getD (row.length - 1) 0 = rowMax row := by
  have hne := sortRow_ne_nil row h
  rw [← sortRow_length row, getD_last _ hne]
  have hmem : (sortRow row).getLast hne ∈ row :=
    (sortRow_perm row).mem_iff.mp (List.getLast_mem hne)
  apply le_antisymm
  · exact le_rowMax row h _ hmem
  · exact sorted_le_getLast _ (sortRow_sorted row) hne _
      ((sortRow_perm row).mem_iff.mpr (rowMax_mem row h))

/-- The nearest-rank index of the 0th percentile is 0. -/
theorem nearestIdx_zero (n : ℕ) : t2.nearestIdx 0 n = 0 := by
  unfold t2.nearestIdx
  norm_num

/-- The nearest-rank index of the 100th percentile is the last index. -/
theorem nearestIdx_one (n : ℕ) : t2.nearestIdx 1 n = n - 1 := by
  unfold t2.nearestIdx
  have h1 : (1 : ℚ) * ((n : ℚ) - 1) = (((n : ℤ) - 1 : ℤ) : ℚ) := by
    push_cast; ring
  simp only [h1, Int.floor_intCast, sub_self]
  norm_num

theorem quantileNearest_zero (row : List ℚ) (h : row ≠ []) :
    t2.quantileNearest row 0 = rowMin row := by
  unfold t2.quantileNearest
  rw [nearestIdx_zero]
  exact sortRow_getD_zero row h

theorem quantileNearest_one (row : List ℚ) (h : row ≠ []) :
    t2.quantileNearest row 1 = rowMax row := by
  unfold t2.quantileNearest
  rw [nearestIdx_one]
  exact sortRow_getD_last row h

theorem identity_true (f : Mat) : t1.identity f true = f := rfl

theorem identity_false (f : Mat) : t1.identity f false = negM f := rfl

theorem zipWith_add_maps (g1 g2 : List ℚ → ℚ) (l : Mat) :
    List.zipWith (fun a b => a + b) (l.map g1) (l.map g2) =
      l.map (fun row => g1 row + g2 row) := by
  induction l with
  | nil => rfl
  | cons r t ih => simp only [List.map_cons, List.zipWith_cons_cons, ih]

/-- On a nonempty matrix, maximin with maximise is the vector of row
minima (the selected single column has `f.shape[1] = 1`, so `f_sum`
divides by one). -/
theorem maximin_eq_rowMin (r : List ℚ) (rest : Mat) :
    maximin (r :: rest) true = (r :: rest).map (fun row => rowMin row) := by
  unfold maximin
  rw [identity_true]
  unfold t2.worst_case t3.f_sum nCols
  simp [div_one]

/-- On a nonempty matrix, maximax of the negated matrix is the negated
vector of row minima. -/
theorem maximax_negM_eq (r : List ℚ) (rest : Mat) :
    maximax (negM (r :: rest)) true =
      (r :: rest).map (fun row => -(rowMin row)) := by
  unfold maximax
  rw [identity_true]
  unfold t2.best_case t3.f_sum nCols negM
  simp only [List.map_map, List.map_cons, List.headD_cons, Function.comp_apply,
    List.length_cons, List.length_nil, Nat.cast_one, div_one, zero_add]
  congr 1
  · rw [List.sum_cons, List.sum_nil, add_zero, rowMin_eq_neg_rowMax_neg r, neg_neg]
  · apply List.map_congr_left
    intro row _
    simp only [Function.comp_apply, List.sum_cons, List.sum_nil, add_zero]
    rw [rowMin_eq_neg_rowMax_neg row, neg_neg]

/-- worst_case and best_case are exact row-wise min/max duals. -/
theorem worst_case_best_case_dual (f : Mat) :
    t2.worst_case f = negM (t2.best_case (negM f)) := by
  unfold t2.worst_case t2.best_case negM
  rw [List.map_map, List.map_map]
  apply List.map_congr_left
  intro row _
  simp only [Function.comp_apply]
  rw [rowMin_eq_neg_rowMax_neg row]
  rfl

theorem updatePair_symm (M : SimMat) (hM : ∀ a b, M a b = M b a) (i j : ℕ)
    (v : Option ℚ) : ∀ a b, updatePair M i j v a b = updatePair M i j v b a := by
  intro a b
  unfold updatePair
  by_cases h1 : (a = i ∧ b = j) ∨ (a = j ∧ b = i)
  · rw [if_pos h1, if_pos (by tauto)]
  · rw [if_neg h1, if_neg (by tauto), hM]

theorem foldl_updatePair_symm (vals : ℕ → ℕ → Option ℚ) (L : List (ℕ × ℕ)) :
    ∀ (M : SimMat), (∀ a b, M a b = M b a) → ∀ a b,
      (L.foldl (fun M2 p => updatePair M2 p.1 p.2 (vals p.1 p.2)) M) a b =
      (L.foldl (fun M2 p => updatePair M2 p.1 p.2 (vals p.1 p.2)) M) b a := by
  induction L with
  | nil => intro M hM; exact hM
  | cons p t ih =>
    intro M hM
    exact ih _ (updatePair_symm M hM p.1 p.2 _)

theorem fillSym_symm (vals : ℕ → ℕ → Option ℚ) (k : ℕ) :
    ∀ a b, fillSym vals k a b = fillSym vals k b a := by
  unfold fillSym
  exact foldl_updatePair_symm vals (pairList k) _ (fun a b => rfl)

theorem foldl_updatePair_diag (vals : ℕ → ℕ → Option ℚ) (L : List (ℕ × ℕ)) :
    ∀ (M : SimMat) (i : ℕ), ((i, i) ∈ L ∨ M i i = vals i i) →
      (L.foldl (fun M2 p => updatePair M2 p.1 p.2 (vals p.1 p.2)) M) i i =
        vals i i := by
  induction L with
  | nil =>
    intro M i hmem
    rcases hmem with h | h
    · simp at h
    · exact h
  | cons p t ih =>
    intro M i hmem
    apply ih
    rcases hmem with h | h
    · rcases List.mem_cons.mp h with he | ht
      · right
        rw [← he]
        simp [updatePair]
      · left; exact ht
    · right
      simp only [updatePair]
      by_cases hc : (i = p.1 ∧ i = p.2) ∨ (i = p.2 ∧ i = p.1)
      · rw [if_pos hc]
        obtain ⟨h1, h2⟩ | ⟨h1, h2⟩ := hc
        · rw [← h1, ← h2]
        · rw [← h2, ← h1]
      · rw [if_neg hc]; exact h

theorem pair_mem_pairList (k i : ℕ) (hi : i < k) : (i, i) ∈ pairList k := by
  unfold pairList
  rw [List.mem_flatMap]
  refine ⟨i, List.mem_range.mpr hi, ?_⟩
  rw [List.mem_map]
  exact ⟨i, List.mem_filter.mpr ⟨List.mem_range.mpr hi, by simp⟩, rfl⟩

theorem fillSym_diag (vals : ℕ → ℕ → Option ℚ) (k i : ℕ) (hi : i < k) :
    fillSym vals k i i = vals i i := by
  unfold fillSym
  exact foldl_updatePair_diag vals (pairList k) _ i (Or.inl (pair_mem_pairList k i hi))

theorem zipWith_self_opt (g : ℚ → ℚ → Option ℚ) (l : List ℚ) :
    List.zipWith g l l = l.map (fun a => g a a) := by
  induction l with
  | nil => rfl
  | cons a t ih => simp only [List.zipWith_cons_cons, List.map_cons, ih]

theorem pairDelta_self (c : List ℚ) (hne : c ≠ []) (hnz : ∀ x ∈ c, x ≠ 0) :
    pairDelta c c = some 0 := by
  unfold pairDelta
  rw [zipWith_self_opt]
  have hmap : c.map (fun a => divOpt |a - a| (|a + a| / 2)) =
      c.map (fun _ => some (0 : ℚ)) := by
    apply List.map_congr_left
    intro a ha
    have h2 : |a + a| / 2 = |a| := by
      rw [← two_mul, abs_mul]
      norm_num
    rw [sub_self, abs_zero, h2]
    unfold divOpt
    rw [if_neg (abs_ne_zero.mpr (hnz a ha)), zero_div]
  rw [hmap]
  unfold avgOpt
  rw [if_neg (by simpa using hne)]
  rw [if_pos (by simp)]
  simp

theorem halfCount_eq_ceil (n : ℕ) : t2.halfCount n = ⌈(n : ℚ) / 2⌉₊ := by
  unfold t2.halfCount
  rcases Nat.even_or_odd n with ⟨k, hk⟩ | ⟨k, hk⟩
  · subst hk
    have h1 : ((k + k : ℕ) : ℚ) / 2 + 51 / 100 = ((k : ℤ) : ℚ) + 51 / 100 := by
      push_cast; ring
    have h2 : ((k + k : ℕ) : ℚ) / 2 = ((k : ℤ) : ℚ) := by push_cast; ring
    rw [h1, add_comm, Int.floor_add_int, h2]
    norm_num [Nat.ceil_intCast]
  · subst hk
    have h1 : ((2 * k + 1 : ℕ) : ℚ) / 2 + 51 / 100 = (101 : ℚ) / 100 + ((k : ℤ) : ℚ) := by
      push_cast; ring
    rw [h1, Int.floor_add_int]
    have h2 : ⌈((2 * k + 1 : ℕ) : ℚ) / 2⌉₊ = k + 1 := by
      rw [Nat.ceil_eq_iff (by omega)]
      constructor
      · push_cast
        rw [lt_div_iff₀ (by norm_num)]
        linarith
      · push_cast
        rw [div_le_iff₀ (by norm_num)]
        linarith
    rw [h2]
    norm_num
    omega

theorem sum_bounds_01 (l : List ℚ) (h : ∀ x ∈ l, 0 ≤ x ∧ x ≤ 1) :
    0 ≤ l.sum ∧ l.sum ≤ (l.length : ℚ) := by
  induction l with
  | nil => simp
  | cons a t ih =>
    obtain ⟨h1, h2⟩ := h a (List.mem_cons_self a t)
    obtain ⟨h3, h4⟩ := ih (fun x hx => h x (List.mem_cons_of_mem a hx))
    constructor
    · simpa using add_nonneg h1 h3
    · simp only [List.sum_cons, List.length_cons]
      push_cast
      linarith

theorem satisfice_entries_01 (f : Mat) (maximise : Bool) (threshold : ℚ)
    (accept_equal : Bool) :
    ∀ row ∈ t1.satisfice f maximise threshold accept_equal,
      ∀ x ∈ row, 0 ≤ x ∧ x ≤ 1 := by
  intro row hrow x hx
  unfold t1.satisfice at hrow
  rw [List.mem_map] at hrow
  obtain ⟨r0, _, hr0⟩ := hrow
  rw [← hr0] at hx
  rw [List.mem_map] at hx
  obtain ⟨x0, _, hx0⟩ := hx
  rw [← hx0]
  have hgen : ∀ (b : Bool), (0 : ℚ) ≤ (if b then (1 : ℚ) else 0) ∧
      (if b then (1 : ℚ) else 0) ≤ 1 := by
    intro b; cases b <;> norm_num
  exact hgen _

theorem identity_row_length (f : Mat) (maximise : Bool) :
    ∀ r1 ∈ t1.identity f maximise, ∃ r0 ∈ f, r1.length = r0.length := by
  intro r1 hr1
  unfold t1.identity at hr1
  cases maximise with
  | false =>
    rw [if_neg Bool.false_ne_true] at hr1
    unfold negM at hr1
    rw [List.mem_map] at hr1
    obtain ⟨r0, hr0, he⟩ := hr1
    exact ⟨r0, hr0, by rw [← he]; simp⟩
  | true =>
    rw [if_pos rfl] at hr1
    exact ⟨r1, hr1, rfl⟩

theorem satisfice_row_length (f : Mat) (maximise : Bool) (threshold : ℚ)
    (accept_equal : Bool) (row : List ℚ)
    (hrow : row ∈ t1.satisfice f maximise threshold accept_equal) :
    ∃ r0 ∈ f, row.length = r0.length := by
  unfold t1.satisfice at hrow
  rw [List.mem_map] at hrow
  obtain ⟨r1, hr1, he⟩ := hrow
  obtain ⟨r0, hr0, hl⟩ := identity_row_length f maximise r1 hr1
  exact ⟨r0, hr0, by rw [← he]; simpa using hl⟩

theorem getD_take (l : List ℚ) (k i : ℕ) (hik : i < k) :
    (l.take k).getD i 0 = l.getD i 0 := by
  rw [List.getD_eq_getElem?_getD, List.getD_eq_getElem?_getD,
    List.getElem?_take, if_pos hik]

theorem f_skew_uses_first_three (f : Mat) (h : ∀ row ∈ f, 3 ≤ row.length) :
    t3.f_skew f = t3.f_skew (f.map (fun row => row.take 3)) := by
  unfold t3.f_skew
  have hc1 : f.all (fun row => decide (3 ≤ row.length)) = true := by
    rw [List.all_eq_true]
    intro row hr
    exact decide_eq_true (h row hr)
  have hc2 : (f.map (fun row => row.take 3)).all
      (fun row => decide (3 ≤ row.length)) = true := by
    rw [List.all_eq_true]
    intro row hr
    rw [List.mem_map] at hr
    obtain ⟨r0, hr0, he⟩ := hr
    apply decide_eq_true
    rw [← he, List.length_take]
    exact le_min (le_refl 3) (h r0 hr0)
  rw [if_pos hc1, if_pos hc2]
  congr 1
  rw [List.map_map]
  apply List.map_congr_left
  intro row hr
  simp only [Function.comp_apply]
  rw [getD_take row 3 0 (by norm_num), getD_take row 3 1 (by norm_num),
    getD_take row 3 2 (by norm_num)]

theorem f_kurtosis_uses_first_four (f : Mat) (h : ∀ row ∈ f, 4 ≤ row.length) :
    t3.f_kurtosis f = t3.f_kurtosis (f.map (fun row => row.take 4)) := by
  unfold t3.f_kurtosis
  have hc1 : f.all (fun row => decide (4 ≤ row.length)) = true := by
    rw [List.all_eq_true]
    intro row hr
    exact decide_eq_true (h row hr)
  have hc2 : (f.map (fun row => row.take 4)).all
      (fun row => decide (4 ≤ row.length)) = true := by
    rw [List.all_eq_true]
    intro row hr
    rw [List.mem_map] at hr
    obtain ⟨r0, hr0, he⟩ := hr
    apply decide_eq_true
    rw [← he, List.length_take]
    exact le_min (le_refl 4) (h r0 hr0)
  rw [if_pos hc1, if_pos hc2]
  congr 1
  rw [List.map_map]
  apply List.map_congr_left
  intro row hr
  simp only [Function.comp_apply]
  rw [getD_take row 4 0 (by norm_num), getD_take row 4 1 (by norm_num),
    getD_take row 4 2 (by norm_num), getD_take row 4 3 (by norm_num)]

theorem matrix_head_mem (f : Mat) (m n : ℕ) (hf : isMatrix m n f) (hm : 1 ≤ m) :
    ∃ row ∈ f, row.length = n := by
  cases f with
  | nil => rw [← hf.1] at hm; simp at hm
  | cons r t => exact ⟨r, List.mem_cons_self r t, hf.2 r (List.mem_cons_self r t)⟩

theorem f_skew_short_none (f : Mat) (m n : ℕ) (hf : isMatrix m n f)
    (hm : 1 ≤ m) (hn : n < 3) : t3.f_skew f = none := by
  unfold t3.f_skew
  obtain ⟨row, hrow, hlen⟩ := matrix_head_mem f m n hf hm
  rw [if_neg]
  intro hall
  rw [List.all_eq_true] at hall
  have := of_decide_eq_true (hall row hrow)
  omega

theorem f_kurtosis_short_none (f : Mat) (m n : ℕ) (hf : isMatrix m n f)
    (hm : 1 ≤ m) (hn : n < 4) : t3.f_kurtosis f = none := by
  unfold t3.f_kurtosis
  obtain ⟨row, hrow, hlen⟩ := matrix_head_mem f m n hf hm
  rw [if_neg]
  intro hall
  rw [List.all_eq_true] at hall
  have := of_decide_eq_true (hall row hrow)
  omega

theorem f_skew_isSome (f : Mat) (m n : ℕ) (hf : isMatrix m n f) (hn : 3 ≤ n) :
    (t3.f_skew f).isSome := by
  unfold t3.f_skew
  rw [if_pos]
  · rfl
  · rw [List.all_eq_true]
    intro row hr
    exact decide_eq_true (by rw [hf.2 row hr]; exact hn)

theorem f_kurtosis_isSome (f : Mat) (m n : ℕ) (hf : isMatrix m n f) (hn : 4 ≤ n) :
    (t3.f_kurtosis f).isSome := by
  unfold t3.f_kurtosis
  rw [if_pos]
  · rfl
  · rw [List.all_eq_true]
    intro row hr
    exact decide_eq_true (by rw [hf.2 row hr]; exact hn)

/-- The per-definition effect of f_to_R on R_dict. -/
def mutSpec (d d2 : MetricDef) : Prop :=
  d2.name = d.name ∧ d2.fName = d.fName ∧ d2.maximise = d.maximise ∧
  d2.threshold = d.threshold ∧ d2.func = d.func ∧
  d2.kwargs.maximise = some d.maximise ∧
  (d.threshold = none → d2.kwargs.t1_kwargs = d.kwargs.t1_kwargs) ∧
  (∀ nm, d.threshold = some nm → ∃ thrM, d2.kwargs.t1_kwargs = some ⟨some thrM⟩)

theorem injectThreshold_none (t2 : FTable) (numL numS : ℕ) (d : MetricDef)
    (h : d.threshold = none) : injectThreshold t2 numL numS d = some d.kwargs := by
  unfold injectThreshold
  rw [h]

theorem injectThreshold_some (t2 : FTable) (numL numS : ℕ) (d : MetricDef)
    (nm : String) (hth : d.threshold = some nm) (k1 : Kwargs)
    (h : injectThreshold t2 numL numS d = some k1) :
    ∃ thrM, k1.t1_kwargs = some ⟨some thrM⟩ := by
  unfold injectThreshold at h
  rw [hth] at h
  dsimp only [] at h
  by_cases hc : t2.names.contains nm
  · rw [if_pos hc] at h
    cases hre : reshape (colVals t2 nm) numL numS with
    | none => rw [hre] at h; simp at h
    | some thrM =>
      rw [hre] at h
      simp only [Option.some_inj] at h
      exact ⟨thrM, by rw [← h]⟩
  · rw [if_neg hc] at h
    simp at h

theorem processDefs_mutation (tb : FTable) (numL numS : ℕ) :
    ∀ (ds : List MetricDef) (out : List (String × List ℚ) × List MetricDef),
      processDefs tb numL numS ds = some out →
      List.Forall₂ mutSpec ds out.2 := by
  intro ds
  induction ds with
  | nil =>
    intro out h
    unfold processDefs at h
    simp only [Option.some_inj] at h
    rw [← h]
    exact List.Forall₂.nil
  | cons d rest ih =>
    intro out h
    unfold processDefs at h
    cases hinj : injectThreshold tb numL numS d with
    | none => rw [hinj] at h; simp at h
    | some k1 =>
      rw [hinj] at h
      cases hre : reshape (colVals tb d.fName) numL numS with
      | none => rw [hre] at h; simp at h
      | some fM =>
        rw [hre] at h
        cases hrest : processDefs tb numL numS rest with
        | none => rw [hrest] at h; simp at h
        | some pr =>
          rw [hrest] at h
          obtain ⟨rs, ds2⟩ := pr
          simp only [Option.some_inj] at h
          rw [← h]
          refine List.Forall₂.cons ?_ (ih (rs, ds2) hrest)
          refine ⟨rfl, rfl, rfl, rfl, rfl, rfl, ?_, ?_⟩
          · intro hth
            have := injectThreshold_none tb numL numS d hth
            rw [this] at hinj
            simp only [Option.some_inj] at hinj
            rw [← hinj]
          · intro nm hth
            exact injectThreshold_some tb numL numS d nm hth k1 hinj

/-- C4 (amended): f_to_R is not kwargs-pure: on success every metric
definition keeps its name, f, maximise, threshold and func fields, but
its kwargs dictionary is mutated: `maximise` is set to the metric's
maximise flag, `t1_kwargs` is unchanged when no threshold column is
named and otherwise holds an injected threshold matrix. -/
theorem C4_f_to_R_mutates_kwargs (t : FTable) (ds : List MetricDef)
    (out : List (String × List ℚ) × List MetricDef)
    (h : f_to_R t ds = some out) : List.Forall₂ mutSpec ds out.2 := by
  unfold f_to_R at h
  dsimp only [] at h
  by_cases hc : ds.all (fun d => t.names.contains d.fName)
  · rw [if_pos hc] at h
    cases hd : get_f_df_details (sort_f_df t) with
    | none => rw [hd] at h; simp at h
    | some pr =>
      rw [hd] at h
      obtain ⟨s_idxs, l_idxs⟩ := pr
      exact processDefs_mutation (sort_f_df t) l_idxs.length s_idxs.length ds out h
  · rw [if_neg hc] at h
    simp at h

/-- The concrete metric function used in the evaluator fixtures: the
maximin metric reading the `maximise` flag from the kwargs the
evaluator passes, as `func(f, **kwargs)` does. -/
def maximinF : Mat → Kwargs → List ℚ :=
  fun f kw => maximin f (kw.maximise.getD true)

/-- A long-format table with two decision alternatives and two
scenarios, rows already in `(l_idx, s_idx)` ascending order. -/
def tblSorted : FTable :=
  { names := ["f1"],
    rows := [⟨0, 0, [1]⟩, ⟨1, 0, [2]⟩, ⟨0, 1, [4]⟩, ⟨1, 1, [3]⟩] }

/-- The same table rows in `(s_idx, l_idx)` ascending order, a row
permutation of tblSorted. -/
def tblByScenario : FTable :=
  { names := ["f1"],
    rows := [⟨0, 0, [1]⟩, ⟨0, 1, [4]⟩, ⟨1, 0, [2]⟩, ⟨1, 1, [3]⟩] }

/-- One maximin metric definition, with an initially empty kwargs
dictionary. -/
def defsM : List MetricDef :=
  [⟨"R1", "f1", true, none, maximinF, ⟨none, none⟩⟩]

/-- C1: f_to_R does not canonicalize the row order: sort_f_df discards
the result of sort_values, so the two row orders of the same table
produce different robustness values for the maximin metric ([1, 3]
versus [1, 2]); the intended sort would have mapped the
scenario-ordered table to the sorted one. -/
theorem C1_unsorted_table_changes_R :
    (f_to_R tblSorted defsM).map (fun p => p.1) = some [("R1", [1, 3])] ∧
    (f_to_R tblByScenario defsM).map (fun p => p.1) = some [("R1", [1, 2])] ∧
    sort_f_df_intended tblByScenario = tblSorted ∧
    sort_f_df tblByScenario = tblByScenario := by
  refine ⟨?_, ?_, ?_, rfl⟩
  · norm_num [f_to_R, tblSorted, defsM, sort_f_df, get_f_df_details, uniqueVals,
      processDefs, injectThreshold, reshape, chunkRows, colVals, maximinF, maximin,
      t1.identity, t2.worst_case, t3.f_sum, rowMin, nCols, List.indexOf,
      List.findIdx, List.findIdx.go]
  · norm_num [f_to_R, tblByScenario, defsM, sort_f_df, get_f_df_details, uniqueVals,
      processDefs, injectThreshold, reshape, chunkRows, colVals, maximinF, maximin,
      t1.identity, t2.worst_case, t3.f_sum, rowMin, nCols, List.indexOf,
      List.findIdx, List.findIdx.go]
  · norm_num [sort_f_df_intended, tblByScenario, tblSorted, List.insertionSort,
      List.orderedInsert, rowLE]

/-- C4 counterexample: after f_to_R returns, the kwargs dictionaries
inside R_dict are not unchanged: the call writes a `maximise` key into
the metric's kwargs dictionary. -/
theorem C4_counterexample :
    (f_to_R tblSorted defsM).map (fun p => p.2.map (fun d => d.kwargs)) ≠
      some (defsM.map (fun d => d.kwargs)) := by
  have h1 : (f_to_R tblSorted defsM).map (fun p => p.2.map (fun d => d.kwargs)) =
      some [⟨none, some true⟩] := by
    norm_num [f_to_R, tblSorted, defsM, sort_f_df, get_f_df_details, uniqueVals,
      processDefs, injectThreshold, reshape, chunkRows, colVals, maximinF, maximin,
      t1.identity, t2.worst_case, t3.f_sum, rowMin, nCols, List.indexOf,
      List.findIdx, List.findIdx.go]
  rw [h1]
  simp [defsM]

/-- C4 witness: the amended mutation theorem applied to the concrete
maximin fixture. -/
theorem C4_witness :
    List.Forall₂ mutSpec defsM
      [⟨"R1", "f1", true, none, maximinF, ⟨none, some true⟩⟩] :=
  C4_f_to_R_mutates_kwargs tblSorted defsM
    ([("R1", [1, 3])], [⟨"R1", "f1", true, none, maximinF, ⟨none, some true⟩⟩])
    (by norm_num [f_to_R, tblSorted, defsM, sort_f_df, get_f_df_details, uniqueVals,
      processDefs, injectThreshold, reshape, chunkRows, colVals, maximinF, maximin,
      t1.identity, t2.worst_case, t3.f_sum, rowMin, nCols, List.indexOf,
      List.findIdx, List.findIdx.go])

/-- C2 counterexample: with the extra negation the claim writes,
maximin(f) + (-maximax(-f)) is 2*rowmin(f), not 0: at f = [[1]] the sum
is [2]. -/
theorem C2_counterexample :
    List.zipWith (fun a b => a + b) (maximin [[1]] true)
      ((maximax (negM [[1]]) true).map (fun x => -x)) ≠ [0] := by
  have h : List.zipWith (fun a b => a + b) (maximin [[1]] true)
      ((maximax (negM [[1]]) true).map (fun x => -x)) = [2] := by
    norm_num [maximin, maximax, negM, t1.identity, t2.worst_case, t2.best_case,
      t3.f_sum, rowMin, rowMax, nCols]
  rw [h]
  intro he
  have := List.head_eq_of_cons_eq he
  norm_num at this

/-- C2 (amended): worst_case and best_case are exact row-wise min/max
duals, and maximin(f, True) + maximax(-f, True) == 0 elementwise. -/
theorem C2_amended (f : Mat) (m n : ℕ) (hf : isMatrix m n f) (_hn : 1 ≤ n) :
    t2.worst_case f = negM (t2.best_case (negM f)) ∧
    List.zipWith (fun a b => a + b) (maximin f true) (maximax (negM f) true) =
      List.replicate m 0 := by
  refine ⟨worst_case_best_case_dual f, ?_⟩
  cases f with
  | nil =>
    have hm : m = 0 := by simpa using hf.1.symm
    subst hm
    rfl
  | cons r rest =>
    have hm : m = (r :: rest).length := hf.1.symm
    subst hm
    rw [maximin_eq_rowMin, maximax_negM_eq, zipWith_add_maps]
    apply List.eq_replicate_iff.mpr
    refine ⟨by simp, ?_⟩
    intro b hb
    rw [List.mem_map] at hb
    obtain ⟨row, _, hrow⟩ := hb
    rw [← hrow]
    ring

/-- C2 witness: the duality at a concrete 2-by-2 matrix. -/
theorem C2_witness :
    t2.worst_case [[1, 2], [4, 3]] = negM (t2.best_case (negM [[1, 2], [4, 3]])) ∧
    List.zipWith (fun a b => a + b) (maximin [[1, 2], [4, 3]] true)
      (maximax (negM [[1, 2], [4, 3]]) true) = List.replicate 2 0 :=
  C2_amended [[1, 2], [4, 3]] 2 2 (by norm_num [isMatrix]) (by norm_num)

/-- C6: the spec's concrete scenario: maximin over
[[0.99, 1.0, 0.5], [0.69, 0.6, 0.6]] gives [0.5, 0.6] when maximising
and [-1.0, -0.69] when minimising, and minimax_regret gives
[-0.1, -0.4]. -/
theorem C6_concrete_values :
    maximin [[99/100, 1, 1/2], [69/100, 3/5, 3/5]] true = [1/2, 3/5] ∧
    maximin [[99/100, 1, 1/2], [69/100, 3/5, 3/5]] false = [-1, -(69/100)] ∧
    minimax_regret [[99/100, 1, 1/2], [69/100, 3/5, 3/5]] true = [-(1/10), -(2/5)] := by
  refine ⟨?_, ?_, ?_⟩
  · norm_num [maximin, t1.identity, t2.worst_case, t3.f_sum, rowMin, nCols, negM]
  · norm_num [maximin, t1.identity, t2.worst_case, t3.f_sum, rowMin, nCols, negM]
  · norm_num [minimax_regret, t1.regret_from_best_da, t1.colMaxs, t1.identity,
      t2.worst_case, t3.f_sum, rowMin, rowMax, nCols, negM, List.range_succ]

/-- C7: satisfice(f, maximise=False, threshold=t, accept_equal=True)
equals satisfice(-f, maximise=True, threshold=-t, accept_equal=True)
elementwise, for every matrix and every scalar threshold. -/
theorem C7_threshold_sign (f : Mat) (t : ℚ) :
    t1.satisfice f false t true = t1.satisfice (negM f) true (-t) true := rfl

/-- C7 witness: the sign reproduction at a concrete matrix and
threshold. -/
theorem C7_witness :
    t1.satisfice [[1, -2]] false (1/2) true =
      t1.satisfice (negM [[1, -2]]) true (-(1/2)) true :=
  C7_threshold_sign [[1, -2]] (1/2)

/-- C8: select_percentiles at percentile 0.0 is the row-wise minimum
(worst_case) and at percentile 1.0 the row-wise maximum (best_case),
by nearest-rank interpolation at the extremes. -/
theorem C8_select_percentiles_bounds (f : Mat) (m n : ℕ)
    (hf : isMatrix m n f) (hn : 1 ≤ n) :
    t2.select_percentiles f [0] = t2.worst_case f ∧
    t2.select_percentiles f [1] = t2.best_case f := by
  constructor
  · unfold t2.select_percentiles t2.worst_case
    apply List.map_congr_left
    intro row hrow
    have hne : row ≠ [] := by
      have := hf.2 row hrow
      intro he
      rw [he] at this
      simp at this
      omega
    simp only [List.map_cons, List.map_nil]
    rw [quantileNearest_zero row hne]
  · unfold t2.select_percentiles t2.best_case
    apply List.map_congr_left
    intro row hrow
    have hne : row ≠ [] := by
      have := hf.2 row hrow
      intro he
      rw [he] at this
      simp at this
      omega
    simp only [List.map_cons, List.map_nil]
    rw [quantileNearest_one row hne]

/-- C8 witness: the percentile bounds at a concrete 1-by-3 matrix. -/
theorem C8_witness :
    t2.select_percentiles [[3, 1, 2]] [0] = t2.worst_case [[3, 1, 2]] ∧
    t2.select_percentiles [[3, 1, 2]] [1] = t2.best_case [[3, 1, 2]] :=
  C8_select_percentiles_bounds [[3, 1, 2]] 1 3 (by norm_num [isMatrix]) (by norm_num)

/-- C3 counterexample: delta[i, i] is not 0 for every R: when a column
holds the value 0, the diagonal relative difference is 0/0, a NaN
(modelled none), not 0. -/
theorem C3_counterexample :
    (scenarios_similarity (fun _ _ => some 1) [[0]]).1 0 0 ≠ some 0 := by
  have h : (scenarios_similarity (fun _ _ => some 1) [[0]]).1 0 0 = none := by
    norm_num [scenarios_similarity, fillSym, pairList, updatePair, pairDelta,
      avgOpt, divOpt, col, nCols, List.range_succ]
  rw [h]
  simp

/-- C3 (amended): for every robustness matrix and every rank-correlation
function, delta and tau are symmetric; the diagonal delta[i, i] is 0
provided column i has no zero entry (a zero entry makes it NaN). -/
theorem C3_similarity_symmetry (kt : List ℚ → List ℚ → Option ℚ) (R : Mat)
    (m k : ℕ) (hf : isMatrix m k R) (i j : ℕ) (hi : i < k) (_hj : j < k) :
    ((scenarios_similarity kt R).1 i j = (scenarios_similarity kt R).1 j i ∧
     (scenarios_similarity kt R).2 i j = (scenarios_similarity kt R).2 j i) ∧
    (1 ≤ m → (∀ row ∈ R, row.getD i 0 ≠ 0) →
      (scenarios_similarity kt R).1 i i = some 0) := by
  unfold scenarios_similarity
  dsimp only []
  refine ⟨⟨fillSym_symm _ _ i j, fillSym_symm _ _ i j⟩, ?_⟩
  intro hm hnz
  have hk : nCols R = k := by
    cases R with
    | nil =>
      rw [← hf.1] at hm
      simp at hm
    | cons r t => exact hf.2 r (List.mem_cons_self r t)
  rw [fillSym_diag _ _ i (by rw [hk]; exact hi)]
  apply pairDelta_self
  · intro he
    have : R.length = 0 := by
      unfold col at he
      simpa using congrArg List.length he
    rw [hf.1] at this
    omega
  · intro x hx
    unfold col at hx
    rw [List.mem_map] at hx
    obtain ⟨row, hrow, he⟩ := hx
    rw [← he]
    exact hnz row hrow

/-- C3 witness: symmetry and the zero diagonal at a concrete 1-by-2
matrix with nonzero entries. -/
theorem C3_witness :
    (((scenarios_similarity (fun _ _ => some 1) [[5, 7]]).1 0 1 =
        (scenarios_similarity (fun _ _ => some 1) [[5, 7]]).1 1 0 ∧
      (scenarios_similarity (fun _ _ => some 1) [[5, 7]]).2 0 1 =
        (scenarios_similarity (fun _ _ => some 1) [[5, 7]]).2 1 0) ∧
     (1 ≤ 1 → (∀ row ∈ ([[5, 7]] : Mat), row.getD 0 0 ≠ 0) →
       (scenarios_similarity (fun _ _ => some 1) [[5, 7]]).1 0 0 = some 0)) :=
  C3_similarity_symmetry (fun _ _ => some 1) [[5, 7]] 1 2
    (by norm_num [isMatrix]) 0 1 (by norm_num) (by norm_num)

/-- C5 counterexample: f_skew on a 4-column input and f_kurtosis on a
5-column input raise nothing at all; they return ordinary values, so
no ShapeError (which does not exist in the code) is raised on a column
count other than the structural one. -/
theorem C5_counterexample :
    t3.f_skew [[1, 2, 3, 4]] = some [some 0] ∧
    t3.f_kurtosis [[1, 2, 3, 4, 5]] = some [some 3] := by
  constructor
  · norm_num [t3.f_skew, divOpt]
  · norm_num [t3.f_kurtosis, divOpt]

/-- C5 (amended): f_skew raises only when the input has fewer than 3
columns (an IndexError from the out-of-bounds column read, there being
no ShapeError in the code); with 3 or more columns it silently computes
from the first three.  f_kurtosis behaves the same with 4 columns. -/
theorem C5_amended (f : Mat) (m n : ℕ) (hf : isMatrix m n f) (hm : 1 ≤ m) :
    ((n < 3 → t3.f_skew f = none) ∧
     (3 ≤ n → (t3.f_skew f).isSome ∧
       t3.f_skew f = t3.f_skew (f.map (fun row => row.take 3)))) ∧
    ((n < 4 → t3.f_kurtosis f = none) ∧
     (4 ≤ n → (t3.f_kurtosis f).isSome ∧
       t3.f_kurtosis f = t3.f_kurtosis (f.map (fun row => row.take 4)))) :=
  ⟨⟨fun hn => f_skew_short_none f m n hf hm hn,
    fun hn => ⟨f_skew_isSome f m n hf hn,
      f_skew_uses_first_three f (fun row hr => by rw [hf.2 row hr]; exact hn)⟩⟩,
   ⟨fun hn => f_kurtosis_short_none f m n hf hm hn,
    fun hn => ⟨f_kurtosis_isSome f m n hf hn,
      f_kurtosis_uses_first_four f (fun row hr => by rw [hf.2 row hr]; exact hn)⟩⟩⟩

/-- C5 witness: the amended behaviour at a concrete 1-by-4 matrix. -/
theorem C5_witness :
    ((4 < 3 → t3.f_skew [[1, 2, 3, 4]] = none) ∧
     (3 ≤ 4 → (t3.f_skew [[1, 2, 3, 4]]).isSome ∧
       t3.f_skew [[1, 2, 3, 4]] =
         t3.f_skew (([[1, 2, 3, 4]] : Mat).map (fun row => row.take 3)))) ∧
    ((4 < 4 → t3.f_kurtosis [[1, 2, 3, 4]] = none) ∧
     (4 ≤ 4 → (t3.f_kurtosis [[1, 2, 3, 4]]).isSome ∧
       t3.f_kurtosis [[1, 2, 3, 4]] =
         t3.f_kurtosis (([[1, 2, 3, 4]] : Mat).map (fun row => row.take 4)))) :=
  C5_amended [[1, 2, 3, 4]] 1 4 (by norm_num [isMatrix]) (by norm_num)

/-- C9: worst_half keeps the first int(n/2 + 0.51) columns of the
row-wise ascending sort, and that truncation count equals the generic
ceiling of n/2 for every n. -/
theorem C9_worst_half (f : Mat) (m n : ℕ) (hf : isMatrix m n f) (hm : 1 ≤ m) :
    t2.worst_half f = f.map (fun row => (sortRow row).take ⌈(n : ℚ) / 2⌉₊) ∧
    ∀ k : ℕ, t2.halfCount k = ⌈(k : ℚ) / 2⌉₊ := by
  refine ⟨?_, halfCount_eq_ceil⟩
  have hk : nCols f = n := by
    cases f with
    | nil =>
      rw [← hf.1] at hm
      simp at hm
    | cons r t => exact hf.2 r (List.mem_cons_self r t)
  unfold t2.worst_half
  dsimp only []
  rw [hk, halfCount_eq_ceil n]

/-- C9 witness: worst_half at a concrete 1-by-5 matrix keeps 3 sorted
columns. -/
theorem C9_witness :
    t2.worst_half [[4, 1, 3, 2, 5]] =
      ([[4, 1, 3, 2, 5]] : Mat).map
        (fun row => (sortRow row).take ⌈(5 : ℚ) / 2⌉₊) ∧
    ∀ k : ℕ, t2.halfCount k = ⌈(k : ℚ) / 2⌉₊ :=
  C9_worst_half [[4, 1, 3, 2, 5]] 1 5 (by norm_num [isMatrix]) (by norm_num)

/-- C10: every entry of starrs_domain lies in [0, 1]: the satisficing
transform produces indicator values and the mean of n indicators over
n scenarios is a fraction. -/
theorem C10_starrs_domain_bounds (f : Mat) (m n : ℕ) (maximise : Bool)
    (threshold : ℚ) (accept_equal : Bool) (hf : isMatrix m n f) (hn : 1 ≤ n) :
    ∀ r ∈ starrs_domain f maximise threshold accept_equal, 0 ≤ r ∧ r ≤ 1 := by
  intro r hr
  unfold starrs_domain t2.all_scenarios t3.f_mean at hr
  rw [List.mem_map] at hr
  obtain ⟨row, hrow, he⟩ := hr
  obtain ⟨r0, hr0, hlen⟩ :=
    satisfice_row_length f maximise threshold accept_equal row hrow
  have hlen2 : row.length = n := by rw [hlen]; exact hf.2 r0 hr0
  have hbounds := satisfice_entries_01 f maximise threshold accept_equal row hrow
  obtain ⟨hs0, hs1⟩ := sum_bounds_01 row hbounds
  have hnpos : (0 : ℚ) < (row.length : ℚ) := by
    rw [hlen2]
    exact_mod_cast hn
  rw [← he]
  constructor
  · exact div_nonneg hs0 (le_of_lt hnpos)
  · rw [div_le_one hnpos]
    exact hs1

/-- C10 witness: the bounds applied to the spec's Starr example, whose
first robustness entry is 2/3. -/
theorem C10_witness :
    0 ≤ (2 : ℚ)/3 ∧ (2 : ℚ)/3 ≤ 1 :=
  C10_starrs_domain_bounds [[1/2, 99/100, 1], [3/5, 13/20, 69/100]] 2 3
    true (13/20) true (by norm_num [isMatrix]) (by norm_num) ((2 : ℚ)/3)
    (by norm_num [starrs_domain, t1.satisfice, t1.identity, t2.all_scenarios,
      t3.f_mean, negM])

end RAPID
